import Mathlib

/-!
# Verification of the voltage-divider search tool

A shallow embedding, over `ℚ`, of the two Rust source files of the
`voltage_div` repository (`src/main.rs` and `src/rc_param.rs`), together
with theorems checking the repository's specification against the code.

The Rust program works with `f64`; the embedding models that arithmetic
exactly over the rationals, so every constant of the program (all of which
are decimal literals) is representable without rounding.  The Rust
`sort_unstable_by cmp` calls are modelled by `List.mergeSort le` where
`le a b` is the decidable relation `cmp a b ≠ Greater`; every property
stated here (sortedness with respect to the comparator, membership,
filtering) is invariant under which correctly sorted permutation the
sorting routine produces.
-/

namespace VoltageDiv

/-- The E24 value series, the `E24` constant of `rc_param.rs`. -/
def E24 : List ℚ :=
  [1.0, 1.1, 1.2, 1.3, 1.5, 1.6, 1.8, 2.0, 2.2, 2.4, 2.7, 3.0, 3.3, 3.6, 3.9,
   4.3, 4.7, 5.1, 5.6, 6.2, 6.8, 7.5, 8.2, 9.1]

/-- The `Series` enum of `rc_param.rs`; the `usize` representation value of
each variant is the step used by `get_e_series_values`. -/
inductive Series where
  | e24
  | e12
  | e6
  | e3
deriving DecidableEq

/-- The `repr(usize)` discriminant of a `Series` variant. -/
def Series.step : Series → Nat
  | .e24 => 1
  | .e12 => 2
  | .e6 => 4
  | .e3 => 8

/-- Rust's `iter().step_by(n)`: elements at indices `0, n, 2n, ...`. -/
def stepBy (n : Nat) (l : List ℚ) : List ℚ :=
  (l.enum.filter (fun p => p.1 % n == 0)).map Prod.snd

/-- `get_e_series_values` of `rc_param.rs`. -/
def get_e_series_values (series : Series) : List ℚ :=
  stepBy series.step E24

/-- The `Resistor` struct of `rc_param.rs`. -/
structure Resistor where
  value : ℚ
  tolerance : ℚ
deriving DecidableEq

/-- `PassiveComponent::new` as implemented for `Resistor`. -/
def Resistor.new (value tolerance : ℚ) : Resistor :=
  { value := value, tolerance := tolerance }

/-- `PassiveComponent::get_value`. -/
def Resistor.get_value (r : Resistor) : ℚ := r.value

/-- `PassiveComponent::get_tolerance`. -/
def Resistor.get_tolerance (r : Resistor) : ℚ := r.tolerance

/-- `PassiveComponent::max`, the default trait method of `rc_param.rs`. -/
def Resistor.max (r : Resistor) : ℚ := r.get_value * (1 + r.get_tolerance)

/-- `PassiveComponent::min`, the default trait method of `rc_param.rs`. -/
def Resistor.min (r : Resistor) : ℚ := r.get_value * (1 - r.get_tolerance)

/-- `get_resistor_list` of `rc_param.rs`: decades `0..6` of the E24 series. -/
def get_resistor_list (tolerance : ℚ) : List Resistor :=
  (List.range 6).flatMap (fun exp =>
    (get_e_series_values Series.e24).map (fun v => Resistor.new (v * 10 ^ exp) tolerance))

/-- The `Voltage` struct of `main.rs`. -/
structure Voltage where
  value : ℚ
  min : ℚ
  max : ℚ
deriving DecidableEq

/-- `Voltage::new_by_allowance` of `main.rs`. -/
def Voltage.new_by_allowance (value allowance : ℚ) : Voltage :=
  { value := value, min := value * (1 - allowance), max := value * (1 + allowance) }

/-- `Voltage::new_by_values` of `main.rs`. -/
def Voltage.new_by_values (value vmin vmax : ℚ) : Voltage :=
  { value := value, min := vmin, max := vmax }

/-- The `Constraint` struct of `main.rs`. -/
structure Constraint where
  voltage : Voltage
  max_current : ℚ
deriving DecidableEq

/-- The `RangedValue<f64>` struct of `main.rs` (`Gain` is an alias of it). -/
structure RangedValue where
  value : ℚ
  min : ℚ
  max : ℚ
deriving DecidableEq

/-- The `CircuitParameters` struct of `main.rs`. -/
structure CircuitParameters where
  r1 : Resistor
  r2 : Resistor
  vref : Voltage
  vref_error : ℚ
deriving DecidableEq

/-- The filter closure inside `find_combinations` (`main.rs` lines 156-164):
a pair passes when the worst-case current is within the constraint and the
typical divider output lies in the constraint voltage window. -/
def acceptPair (constraint : Constraint) (v_src : Voltage) (r1 r2 : Resistor) : Bool :=
  let max_curr := v_src.value / (r1.min + r2.min)
  let vref := r2.get_value / (r1.get_value + r2.get_value) * v_src.value
  decide (max_curr ≤ constraint.max_current) &&
    (decide (vref ≥ constraint.voltage.min) && decide (vref ≤ constraint.voltage.max))

/-- The map closure inside `find_combinations` (`main.rs` lines 165-182):
the `CircuitParameters` built for an accepted pair. -/
def mkCircuitParameters (constraint : Constraint) (v_src : Voltage) (r1 r2 : Resistor) :
    CircuitParameters :=
  let r := r2.get_value / (r1.get_value + r2.get_value)
  let v_max := (r2.max / (r1.min + r2.max)) * v_src.max
  let v_min := (r2.min / (r1.max + r2.min)) * v_src.min
  let vref := Voltage.new_by_values (r * v_src.value) v_min v_max
  { r1 := r1, r2 := r2, vref := vref, vref_error := vref.value - constraint.voltage.value }

/-- The flat-map/filter/map enumeration of `find_combinations` before the
sort (`main.rs` lines 148-185). -/
def searchPairs (constraint : Constraint) (v_src : Voltage) (resistors : List Resistor) :
    List CircuitParameters :=
  resistors.flatMap (fun r1 =>
    ((resistors.filter (fun r2 => acceptPair constraint v_src r1 r2)).map
      (fun r2 => mkCircuitParameters constraint v_src r1 r2)))

/-- The Stage-A comparator of `find_combinations` (`main.rs` lines 187-201),
as the relation `cmp a b ≠ Greater`: ascending squared error, ties broken by
ascending total typical resistance. -/
def stageALe (a b : CircuitParameters) : Bool :=
  decide (a.vref_error ^ 2 < b.vref_error ^ 2) ||
    (decide (a.vref_error ^ 2 = b.vref_error ^ 2) &&
      decide (a.r1.get_value + a.r2.get_value ≤ b.r1.get_value + b.r2.get_value))

/-- `find_combinations` of `main.rs`: enumerate, filter, build, Stage-A sort. -/
def find_combinations (constraint : Constraint) (v_src : Voltage) (resistors : List Resistor) :
    List CircuitParameters :=
  (searchPairs constraint v_src resistors).mergeSort stageALe

/-- The current-gain parameter `k` of `main` (`main.rs` lines 220-224),
built from the gain range and the sense resistor `r_rs`. -/
def mkK (gain : RangedValue) (r_rs : Resistor) : RangedValue :=
  { value := gain.value / r_rs.get_value
    min := gain.min / r_rs.max
    max := gain.max / r_rs.min }

/-- The Stage-B comparator of `main` (`main.rs` lines 226-230), as the
relation `cmp a b ≠ Greater`: ascending derived output current. -/
def stageBLe (k : RangedValue) (a b : CircuitParameters) : Bool :=
  decide (k.value * a.vref.value ≤ k.value * b.vref.value)

/-- Stage B of `main`: sort ascending by `k.value * vref.value`, then
`reverse` (`main.rs` lines 226-231), leaving the list in descending order. -/
def stageB (k : RangedValue) (l : List CircuitParameters) : List CircuitParameters :=
  (l.mergeSort (stageBLe k)).reverse

/-- The four chained Stage-C filters and the Stage-D `take(10)` of `main`
(`main.rs` lines 233-240), applied after the Stage-B re-sort. -/
def pipeline (constraint : Constraint) (k : RangedValue) (i_out : ℚ)
    (combs : List CircuitParameters) : List CircuitParameters :=
  (((((stageB k combs).filter
      (fun p => decide (p.vref.max ≤ constraint.voltage.max))).filter
      (fun p => decide (k.max * p.vref.max ≤ i_out))).filter
      (fun p => decide (p.r1.min + p.r2.min ≥ 10e3))).filter
      (fun p => decide (p.r1.max + p.r2.max ≤ 120e3))).take 10

/-- The Stage-C survivor list in Stage-B order: the candidates passing all
four filters, before `take(10)`. -/
def stageCSurvivors (constraint : Constraint) (k : RangedValue) (i_out : ℚ)
    (combs : List CircuitParameters) : List CircuitParameters :=
  (stageB k combs).filter (fun p =>
    decide (p.vref.max ≤ constraint.voltage.max) &&
      (decide (k.max * p.vref.max ≤ i_out) &&
        (decide (p.r1.min + p.r2.min ≥ 10e3) && decide (p.r1.max + p.r2.max ≤ 120e3))))

/-- Division guarded against a zero divisor, mirroring where an `f64`
division in the program could produce a non-finite value. -/
def qdivOpt (a b : ℚ) : Option ℚ :=
  if b = 0 then none else some (a / b)

/-- The Stage-B comparison key `k.get_typical_value() * vref.value` with
every division it depends on guarded: the gain over the sense resistor, and
the divider ratio over the resistor sum that produced `vref.value`. -/
def stageBKeyChecked (gain : RangedValue) (r_rs : Resistor) (v_src : Voltage)
    (p : CircuitParameters) : Option ℚ :=
  (qdivOpt gain.value r_rs.get_value).bind (fun kv =>
    (qdivOpt p.r2.get_value (p.r1.get_value + p.r2.get_value)).bind (fun r =>
      some (kv * (r * v_src.value))))

/-! ### Example configuration used by the witness theorems -/

/-- A small concrete constraint: window `[1/2, 4]` around `2`, current cap `1/10`. -/
def cEx : Constraint :=
  { voltage := Voltage.new_by_values 2 (1/2) 4, max_current := 1/10 }

/-- A concrete source voltage, `5 V` with band `[19/4, 21/4]`. -/
def vEx : Voltage := Voltage.new_by_values 5 (19/4) (21/4)

/-- A wider concrete source voltage with the same typical value. -/
def vEx' : Voltage := Voltage.new_by_values 5 (9/2) (11/2)

/-- A concrete 3 kΩ, 1 % resistor. -/
def r3k : Resistor := Resistor.new 3000 (1/100)

/-- A concrete 2 kΩ, 1 % resistor. -/
def r2k : Resistor := Resistor.new 2000 (1/100)

/-- A two-element concrete catalog. -/
def rsEx : List Resistor := [r3k, r2k]

/-- The candidate built for the pair `(r3k, r2k)` in the example setup. -/
def pEx : CircuitParameters := mkCircuitParameters cEx vEx r3k r2k

/-! ### Basic characterization lemmas -/

theorem acceptPair_eq_true_iff {c : Constraint} {v : Voltage} {r1 r2 : Resistor} :
    acceptPair c v r1 r2 = true ↔
      (v.value / (r1.min + r2.min) ≤ c.max_current ∧
        c.voltage.min ≤ r2.get_value / (r1.get_value + r2.get_value) * v.value ∧
        r2.get_value / (r1.get_value + r2.get_value) * v.value ≤ c.voltage.max) := by
  simp [acceptPair, Bool.and_eq_true, decide_eq_true_eq, ge_iff_le]

theorem mem_searchPairs {c : Constraint} {v : Voltage} {rs : List Resistor}
    {p : CircuitParameters} :
    p ∈ searchPairs c v rs ↔
      ∃ r1 ∈ rs, ∃ r2 ∈ rs, acceptPair c v r1 r2 = true ∧
        p = mkCircuitParameters c v r1 r2 := by
  simp only [searchPairs, List.mem_flatMap, List.mem_map, List.mem_filter]
  constructor
  · rintro ⟨r1, h1, r2, ⟨h2, hacc⟩, hp⟩
    exact ⟨r1, h1, r2, h2, hacc, hp.symm⟩
  · rintro ⟨r1, h1, r2, h2, hacc, hp⟩
    exact ⟨r1, h1, r2, ⟨h2, hacc⟩, hp.symm⟩

theorem mem_find_combinations {c : Constraint} {v : Voltage} {rs : List Resistor}
    {p : CircuitParameters} :
    p ∈ find_combinations c v rs ↔ p ∈ searchPairs c v rs :=
  (List.mergeSort_perm (searchPairs c v rs) stageALe).mem_iff

theorem mem_find_combinations_elim {c : Constraint} {v : Voltage} {rs : List Resistor}
    {p : CircuitParameters} (h : p ∈ find_combinations c v rs) :
    ∃ r1 ∈ rs, ∃ r2 ∈ rs, acceptPair c v r1 r2 = true ∧
      p = mkCircuitParameters c v r1 r2 :=
  mem_searchPairs.mp (mem_find_combinations.mp h)

theorem mem_find_combinations_intro {c : Constraint} {v : Voltage} {rs : List Resistor}
    {r1 r2 : Resistor} (h1 : r1 ∈ rs) (h2 : r2 ∈ rs) (hacc : acceptPair c v r1 r2 = true) :
    mkCircuitParameters c v r1 r2 ∈ find_combinations c v rs :=
  mem_find_combinations.mpr (mem_searchPairs.mpr ⟨r1, h1, r2, h2, hacc, rfl⟩)

/-! ### C1: acceptance characterization of find_combinations -/

/-- **C1.** For resistors `r1, r2` of the catalog, `find_combinations` contains a
`CircuitParameters` for the ordered pair `(r1, r2)` if and only if the worst-case
current `v_src.value / (r1.min + r2.min)` is at most `constraint.max_current` and
the typical divider output `r2.value / (r1.value + r2.value) * v_src.value` lies
within the constraint voltage window; moreover every element of the returned list
satisfies both conditions. -/
theorem C1_find_combinations_accept_iff (c : Constraint) (v_src : Voltage)
    (rs : List Resistor) (r1 r2 : Resistor) (h1 : r1 ∈ rs) (h2 : r2 ∈ rs) :
    ((∃ p ∈ find_combinations c v_src rs, p.r1 = r1 ∧ p.r2 = r2) ↔
      (v_src.value / (r1.min + r2.min) ≤ c.max_current ∧
        c.voltage.min ≤ r2.get_value / (r1.get_value + r2.get_value) * v_src.value ∧
        r2.get_value / (r1.get_value + r2.get_value) * v_src.value ≤ c.voltage.max)) ∧
    ∀ p ∈ find_combinations c v_src rs,
      v_src.value / (p.r1.min + p.r2.min) ≤ c.max_current ∧
      c.voltage.min ≤ p.r2.get_value / (p.r1.get_value + p.r2.get_value) * v_src.value ∧
      p.r2.get_value / (p.r1.get_value + p.r2.get_value) * v_src.value ≤ c.voltage.max := by
  constructor
  · constructor
    · rintro ⟨p, hp, hr1, hr2⟩
      obtain ⟨a, _, b, _, hacc, rfl⟩ := mem_find_combinations_elim hp
      rw [show a = r1 from hr1, show b = r2 from hr2] at hacc
      exact acceptPair_eq_true_iff.mp hacc
    · intro hcond
      exact ⟨mkCircuitParameters c v_src r1 r2,
        mem_find_combinations_intro h1 h2 (acceptPair_eq_true_iff.mpr hcond), rfl, rfl⟩
  · intro p hp
    obtain ⟨a, _, b, _, hacc, rfl⟩ := mem_find_combinations_elim hp
    exact acceptPair_eq_true_iff.mp hacc

unseal Rat.add Rat.sub Rat.mul Rat.inv Rat.ofScientific List.merge List.mergeSort in
/-- Witness for C1: the concrete pair `(r3k, r2k)` of the example catalog. -/
theorem C1_witness :
    r3k ∈ rsEx ∧ r2k ∈ rsEx ∧
      ∃ p ∈ find_combinations cEx vEx rsEx, p.r1 = r3k ∧ p.r2 = r2k :=
  ⟨by decide, by decide,
    (C1_find_combinations_accept_iff cEx vEx rsEx r3k r2k (by decide) (by decide)).1.mpr
      (by decide)⟩

/-! ### C2: the propagated voltage range of an accepted pair -/

/-- **C2.** Every candidate built by `find_combinations` carries the worst-case
corner voltage band: `vref.max = (r2.max / (r1.min + r2.max)) * v_src.max`,
`vref.min = (r2.min / (r1.max + r2.min)) * v_src.min`,
`vref.value = r2.value / (r1.value + r2.value) * v_src.value`, and
`vref_error = vref.value − constraint.voltage.value`, where each resistor bound
is `value · (1 ∓ tolerance)`. -/
theorem C2_vref_formulas (c : Constraint) (v_src : Voltage) (rs : List Resistor) :
    ∀ p ∈ find_combinations c v_src rs,
      p.vref.max = (p.r2.max / (p.r1.min + p.r2.max)) * v_src.max ∧
      p.vref.min = (p.r2.min / (p.r1.max + p.r2.min)) * v_src.min ∧
      p.vref.value = p.r2.get_value / (p.r1.get_value + p.r2.get_value) * v_src.value ∧
      p.vref_error = p.vref.value - c.voltage.value ∧
      p.r1.min = p.r1.get_value * (1 - p.r1.get_tolerance) ∧
      p.r1.max = p.r1.get_value * (1 + p.r1.get_tolerance) ∧
      p.r2.min = p.r2.get_value * (1 - p.r2.get_tolerance) ∧
      p.r2.max = p.r2.get_value * (1 + p.r2.get_tolerance) := by
  intro p hp
  obtain ⟨a, _, b, _, _, rfl⟩ := mem_find_combinations_elim hp
  exact ⟨rfl, rfl, rfl, rfl, rfl, rfl, rfl, rfl⟩

unseal Rat.add Rat.sub Rat.mul Rat.inv Rat.ofScientific List.merge List.mergeSort in
/-- Witness for C2: the formulas hold for the concrete candidate `pEx`. -/
theorem C2_witness :
    pEx ∈ find_combinations cEx vEx rsEx ∧
      pEx.vref.max = (pEx.r2.max / (pEx.r1.min + pEx.r2.max)) * vEx.max :=
  ⟨by decide, (C2_vref_formulas cEx vEx rsEx pEx (by decide)).1⟩

/-! ### C4: Stage-A ordering -/

theorem stageALe_iff {a b : CircuitParameters} :
    stageALe a b = true ↔
      (a.vref_error ^ 2 < b.vref_error ^ 2 ∨
        (a.vref_error ^ 2 = b.vref_error ^ 2 ∧
          a.r1.get_value + a.r2.get_value ≤ b.r1.get_value + b.r2.get_value)) := by
  simp [stageALe, Bool.or_eq_true, Bool.and_eq_true, decide_eq_true_eq]

theorem stageALe_trans (a b c' : CircuitParameters)
    (h1 : stageALe a b = true) (h2 : stageALe b c' = true) : stageALe a c' = true := by
  rw [stageALe_iff] at h1 h2 ⊢
  rcases h1 with h1 | ⟨he1, hs1⟩
  · rcases h2 with h2 | ⟨he2, hs2⟩
    · exact Or.inl (h1.trans h2)
    · exact Or.inl (he2 ▸ h1)
  · rcases h2 with h2 | ⟨he2, hs2⟩
    · exact Or.inl (he1 ▸ h2)
    · exact Or.inr ⟨he1.trans he2, hs1.trans hs2⟩

theorem stageALe_total (a b : CircuitParameters) :
    (stageALe a b || stageALe b a) = true := by
  rw [Bool.or_eq_true, stageALe_iff, stageALe_iff]
  rcases lt_trichotomy (a.vref_error ^ 2) (b.vref_error ^ 2) with h | h | h
  · exact Or.inl (Or.inl h)
  · rcases le_total (a.r1.get_value + a.r2.get_value) (b.r1.get_value + b.r2.get_value) with
      hs | hs
    · exact Or.inl (Or.inr ⟨h, hs⟩)
    · exact Or.inr (Or.inr ⟨h.symm, hs⟩)
  · exact Or.inr (Or.inl h)

/-- **C4.** The list returned by `find_combinations` is sorted ascending by
squared voltage error, ties broken ascending by total typical resistance; in
particular earlier entries never have strictly larger absolute voltage error,
so a candidate with strictly smaller `|vref_error|` always precedes one with a
larger `|vref_error|`. -/
theorem C4_stageA_sorted (c : Constraint) (v_src : Voltage) (rs : List Resistor) :
    List.Pairwise (fun a b =>
        a.vref_error ^ 2 < b.vref_error ^ 2 ∨
          (a.vref_error ^ 2 = b.vref_error ^ 2 ∧
            a.r1.get_value + a.r2.get_value ≤ b.r1.get_value + b.r2.get_value))
      (find_combinations c v_src rs) ∧
    List.Pairwise (fun a b => |a.vref_error| ≤ |b.vref_error|)
      (find_combinations c v_src rs) := by
  have h := List.sorted_mergeSort stageALe_trans stageALe_total (searchPairs c v_src rs)
  unfold find_combinations
  refine ⟨h.imp (fun hab => stageALe_iff.mp hab), h.imp (fun hab => ?_)⟩
  rcases stageALe_iff.mp hab with hlt | ⟨heq, -⟩
  · exact (sq_lt_sq.mp hlt).le
  · exact ((sq_eq_sq_iff_abs_eq_abs _ _).mp heq).le

/-! ### C5: the gain parameter k and the Stage-B ordering -/

theorem stageBLe_trans (k : RangedValue) (a b c' : CircuitParameters)
    (h1 : stageBLe k a b = true) (h2 : stageBLe k b c' = true) :
    stageBLe k a c' = true := by
  simp only [stageBLe, decide_eq_true_eq] at h1 h2 ⊢
  exact h1.trans h2

theorem stageBLe_total (k : RangedValue) (a b : CircuitParameters) :
    (stageBLe k a b || stageBLe k b a) = true := by
  simp only [stageBLe, Bool.or_eq_true, decide_eq_true_eq]
  exact le_total _ _

/-- **C5.** The derived current-gain parameter satisfies
`k.value = gain.value / sense.value`, `k.min = gain.min / sense.max`,
`k.max = gain.max / sense.min`, and the Stage-B output is ordered descending by
`k.value * vref.value`. -/
theorem C5_k_fields_and_stageB_sorted (gain : RangedValue) (r_rs : Resistor)
    (k : RangedValue) (l : List CircuitParameters) :
    (mkK gain r_rs).value = gain.value / r_rs.get_value ∧
    (mkK gain r_rs).min = gain.min / r_rs.max ∧
    (mkK gain r_rs).max = gain.max / r_rs.min ∧
    List.Pairwise (fun a b => k.value * b.vref.value ≤ k.value * a.vref.value)
      (stageB k l) := by
  refine ⟨rfl, rfl, rfl, ?_⟩
  have h := List.sorted_mergeSort (stageBLe_trans k) (stageBLe_total k) l
  unfold stageB
  rw [List.pairwise_reverse]
  exact h.imp (fun hab => by simpa [stageBLe, decide_eq_true_eq] using hab)

/-! ### C3: the Stage-C filters and the Stage-D truncation -/

/-- **C3.** Every candidate emitted by the final pipeline passes all four
Stage-C filters, the emitted list is exactly the first ten survivors in
Stage-B order, and when ten or fewer candidates survive the whole survivor
list (possibly empty) is emitted. -/
theorem C3_pipeline_spec (c : Constraint) (k : RangedValue) (i_lim : ℚ)
    (l : List CircuitParameters) :
    pipeline c k i_lim l = (stageCSurvivors c k i_lim l).take 10 ∧
    (∀ p ∈ pipeline c k i_lim l,
      p.vref.max ≤ c.voltage.max ∧ k.max * p.vref.max ≤ i_lim ∧
      10e3 ≤ p.r1.min + p.r2.min ∧ p.r1.max + p.r2.max ≤ 120e3) ∧
    (pipeline c k i_lim l).length ≤ 10 ∧
    ((stageCSurvivors c k i_lim l).length ≤ 10 →
      pipeline c k i_lim l = stageCSurvivors c k i_lim l) := by
  have heq : pipeline c k i_lim l = (stageCSurvivors c k i_lim l).take 10 := by
    simp only [pipeline, stageCSurvivors, List.filter_filter]
    refine congrArg (List.take 10) (List.filter_congr fun a ha => ?_)
    simp only [Bool.and_comm, Bool.and_left_comm, Bool.and_assoc]
  refine ⟨heq, ?_, ?_, ?_⟩
  · intro p hp
    rw [heq] at hp
    have hp' := List.mem_of_mem_take hp
    rw [stageCSurvivors, List.mem_filter] at hp'
    have hcond := hp'.2
    simp only [Bool.and_eq_true, decide_eq_true_eq, ge_iff_le] at hcond
    exact ⟨hcond.1, hcond.2.1, hcond.2.2.1, hcond.2.2.2⟩
  · rw [heq, List.length_take]
    exact min_le_left _ _
  · intro hlen
    rw [heq]
    exact List.take_of_length_le hlen

/-- A concrete unit gain parameter for the pipeline witness. -/
def kW : RangedValue := { value := 1, min := 1, max := 1 }

/-- A concrete candidate passing all four Stage-C filters. -/
def pW : CircuitParameters :=
  { r1 := Resistor.new 20000 0, r2 := Resistor.new 20000 0
    vref := Voltage.new_by_values 2 1 3, vref_error := 0 }

unseal Rat.add Rat.sub Rat.mul Rat.inv Rat.ofScientific List.merge List.mergeSort in
/-- Witness for C3: the concrete candidate `pW` is emitted and passes all four
filters. -/
theorem C3_witness :
    pW ∈ pipeline cEx kW 1000 [pW] ∧
      pW.vref.max ≤ cEx.voltage.max ∧ kW.max * pW.vref.max ≤ 1000 ∧
      10e3 ≤ pW.r1.min + pW.r2.min ∧ pW.r1.max + pW.r2.max ≤ 120e3 :=
  ⟨by decide, (C3_pipeline_spec cEx kW 1000 [pW]).2.1 pW (by decide)⟩

/-! ### C6: the resistor catalog generator -/

/-- **C6.** For every tolerance `t`, `get_resistor_list t` has exactly
`24 × 6 = 144` entries, is the decade-major/series-minor enumeration of the
E24 values over decades `10^0 .. 10^5`, and each entry has bounds
`min = value · (1 − t)` and `max = value · (1 + t)`. -/
theorem C6_get_resistor_list_spec (t : ℚ) :
    (get_resistor_list t).length = 144 ∧
    get_resistor_list t =
      (List.range 6).flatMap (fun d => E24.map (fun v => Resistor.new (v * 10 ^ d) t)) ∧
    ∀ r ∈ get_resistor_list t,
      r.get_tolerance = t ∧ r.min = r.get_value * (1 - t) ∧
        r.max = r.get_value * (1 + t) := by
  refine ⟨?_, ?_, ?_⟩
  · rfl
  · rfl
  · intro r hr
    simp only [get_resistor_list, List.mem_flatMap, List.mem_map, List.mem_range] at hr
    obtain ⟨d, -, v, -, rfl⟩ := hr
    exact ⟨rfl, rfl, rfl⟩

unseal Rat.add Rat.sub Rat.mul Rat.inv Rat.ofScientific in
/-- Witness for C6: the first catalog entry at 1 % tolerance has the stated
bounds. -/
theorem C6_witness :
    Resistor.new 1 (1/100) ∈ get_resistor_list (1/100) ∧
      (Resistor.new 1 (1/100)).get_tolerance = 1/100 ∧
      (Resistor.new 1 (1/100)).min = (Resistor.new 1 (1/100)).get_value * (1 - 1/100) ∧
      (Resistor.new 1 (1/100)).max = (Resistor.new 1 (1/100)).get_value * (1 + 1/100) :=
  ⟨by decide, (C6_get_resistor_list_spec (1/100)).2.2 (Resistor.new 1 (1/100)) (by decide)⟩

/-! ### Resistor bound helpers -/

theorem Resistor.min_pos {r : Resistor} (hv : 0 < r.get_value)
    (ht : r.get_tolerance < 1) : 0 < r.min :=
  mul_pos hv (by linarith)

theorem Resistor.max_pos {r : Resistor} (hv : 0 < r.get_value)
    (ht : 0 ≤ r.get_tolerance) : 0 < r.max :=
  mul_pos hv (by linarith)

theorem Resistor.min_le_get_value {r : Resistor} (hv : 0 ≤ r.get_value)
    (ht : 0 ≤ r.get_tolerance) : r.min ≤ r.get_value := by
  unfold Resistor.min
  nlinarith [mul_nonneg hv ht]

theorem Resistor.get_value_le_max {r : Resistor} (hv : 0 ≤ r.get_value)
    (ht : 0 ≤ r.get_tolerance) : r.get_value ≤ r.max := by
  unfold Resistor.max
  nlinarith [mul_nonneg hv ht]

/-! ### C7: widening the source band never narrows the vref band -/

theorem acceptPair_congr {c : Constraint} {v v' : Voltage} (h : v'.value = v.value)
    (r1 r2 : Resistor) : acceptPair c v' r1 r2 = acceptPair c v r1 r2 := by
  simp [acceptPair, h]

/-- **C7.** For a fixed catalog whose resistors have positive bounds, replacing
`v_src` by a source with the same typical value, a lower (or equal) `min` and a
higher (or equal) `max` keeps every accepted pair accepted and yields, for each
of its candidates, a vref band containing the original one. -/
theorem C7_vref_band_monotone (c : Constraint) (v v' : Voltage) (rs : List Resistor)
    (hpos : ∀ r ∈ rs, 0 < r.min ∧ 0 < r.max)
    (hval : v'.value = v.value) (hlo : v'.min ≤ v.min) (hhi : v.max ≤ v'.max) :
    ∀ p ∈ find_combinations c v rs,
      ∃ q ∈ find_combinations c v' rs,
        q.r1 = p.r1 ∧ q.r2 = p.r2 ∧ q.vref.min ≤ p.vref.min ∧ p.vref.max ≤ q.vref.max := by
  intro p hp
  obtain ⟨a, ha, b, hb, hacc, rfl⟩ := mem_find_combinations_elim hp
  refine ⟨mkCircuitParameters c v' a b,
    mem_find_combinations_intro ha hb ((acceptPair_congr hval a b).trans hacc),
    rfl, rfl, ?_, ?_⟩
  · show (b.min / (a.max + b.min)) * v'.min ≤ (b.min / (a.max + b.min)) * v.min
    have hco : (0:ℚ) ≤ b.min / (a.max + b.min) :=
      le_of_lt (div_pos (hpos b hb).1 (add_pos (hpos a ha).2 (hpos b hb).1))
    exact mul_le_mul_of_nonneg_left hlo hco
  · show (b.max / (a.min + b.max)) * v.max ≤ (b.max / (a.min + b.max)) * v'.max
    have hco : (0:ℚ) ≤ b.max / (a.min + b.max) :=
      le_of_lt (div_pos (hpos b hb).2 (add_pos (hpos a ha).1 (hpos b hb).2))
    exact mul_le_mul_of_nonneg_left hhi hco

unseal Rat.add Rat.sub Rat.mul Rat.inv Rat.ofScientific List.merge List.mergeSort in
/-- Witness for C7: widening the example source band from `[19/4, 21/4]` to
`[9/2, 11/2]` keeps the candidate for `(r3k, r2k)` and widens its band. -/
theorem C7_witness :
    (∀ r ∈ rsEx, 0 < r.min ∧ 0 < r.max) ∧ vEx'.value = vEx.value ∧
      vEx'.min ≤ vEx.min ∧ vEx.max ≤ vEx'.max ∧
      pEx ∈ find_combinations cEx vEx rsEx ∧
      ∃ q ∈ find_combinations cEx vEx' rsEx,
        q.r1 = pEx.r1 ∧ q.r2 = pEx.r2 ∧ q.vref.min ≤ pEx.vref.min ∧
          pEx.vref.max ≤ q.vref.max :=
  ⟨by decide, by decide, by decide, by decide, by decide,
    C7_vref_band_monotone cEx vEx vEx' rsEx (by decide) (by decide) (by decide) (by decide)
      pEx (by decide)⟩

/-! ### C8: swapped and self pairs -/

/-- The constraint of the C8 counterexample: window `[12/5, 4]`, generous
current cap. -/
def cC8 : Constraint :=
  { voltage := Voltage.new_by_values 3 (12/5) 4, max_current := 1000 }

/-- The source voltage of the C8 counterexample. -/
def vC8 : Voltage := Voltage.new_by_values 5 (19/4) (21/4)

/-- The catalog of the C8 counterexample: ideal 2 Ω and 3 Ω resistors. -/
def rsC8 : List Resistor := [Resistor.new 2 0, Resistor.new 3 0]

unseal Rat.add Rat.sub Rat.mul Rat.inv Rat.ofScientific List.merge List.mergeSort in
/-- **C8 is false as stated**: in the `cC8`/`vC8`/`rsC8` setup the ordered pair
`(2 Ω, 3 Ω)` is accepted and the swapped pair `(3 Ω, 2 Ω)` passes the
max-current check (which is symmetric in the two resistors), yet no candidate
for the swapped pair appears — it fails the voltage-window check instead. -/
theorem C8_counterexample :
    (∃ p ∈ find_combinations cC8 vC8 rsC8,
      p.r1 = Resistor.new 2 0 ∧ p.r2 = Resistor.new 3 0) ∧
    vC8.value / ((Resistor.new 3 0).min + (Resistor.new 2 0).min) ≤ cC8.max_current ∧
    ¬∃ p ∈ find_combinations cC8 vC8 rsC8,
      p.r1 = Resistor.new 3 0 ∧ p.r2 = Resistor.new 2 0 := by
  decide

/-- **C8 (amended).** If the ordered pair `(a, b)` is accepted then the swapped
pair `(b, a)` also appears as a candidate, unless `(b, a)` fails the max-current
check **or the voltage-window check** `constraint.voltage.min ≤ vref_typ ≤
constraint.voltage.max`; self-pairs likewise yield candidates whenever they are
accepted. -/
theorem C8_swap_and_self_pairs (c : Constraint) (v : Voltage) (rs : List Resistor)
    (a b : Resistor) (ha : a ∈ rs) (hb : b ∈ rs)
    (hab : acceptPair c v a b = true)
    (hmc : v.value / (b.min + a.min) ≤ c.max_current)
    (hwin1 : c.voltage.min ≤ a.get_value / (b.get_value + a.get_value) * v.value)
    (hwin2 : a.get_value / (b.get_value + a.get_value) * v.value ≤ c.voltage.max) :
    (∃ p ∈ find_combinations c v rs, p.r1 = b ∧ p.r2 = a) ∧
    ∀ r ∈ rs, acceptPair c v r r = true →
      ∃ p ∈ find_combinations c v rs, p.r1 = r ∧ p.r2 = r := by
  constructor
  · exact ⟨mkCircuitParameters c v b a,
      mem_find_combinations_intro hb ha (acceptPair_eq_true_iff.mpr ⟨hmc, hwin1, hwin2⟩),
      rfl, rfl⟩
  · intro r hr hacc
    exact ⟨mkCircuitParameters c v r r, mem_find_combinations_intro hr hr hacc, rfl, rfl⟩

unseal Rat.add Rat.sub Rat.mul Rat.inv Rat.ofScientific List.merge List.mergeSort in
/-- Witness for the amended C8: in the example setup both orderings of
`(r3k, r2k)` appear, and the self-pair `(r3k, r3k)` appears. -/
theorem C8_witness :
    r3k ∈ rsEx ∧ r2k ∈ rsEx ∧ acceptPair cEx vEx r3k r2k = true ∧
      vEx.value / (r2k.min + r3k.min) ≤ cEx.max_current ∧
      (∃ p ∈ find_combinations cEx vEx rsEx, p.r1 = r2k ∧ p.r2 = r3k) ∧
      ∃ p ∈ find_combinations cEx vEx rsEx, p.r1 = r3k ∧ p.r2 = r3k :=
  ⟨by decide, by decide, by decide, by decide,
    (C8_swap_and_self_pairs cEx vEx rsEx r3k r2k (by decide) (by decide) (by decide)
        (by decide) (by decide) (by decide)).1,
    (C8_swap_and_self_pairs cEx vEx rsEx r3k r2k (by decide) (by decide) (by decide)
        (by decide) (by decide) (by decide)).2 r3k (by decide) (by decide)⟩

/-! ### C9: the Stage-B comparison keys are well defined -/

theorem mkCircuitParameters_r1 (c : Constraint) (v : Voltage) (a b : Resistor) :
    (mkCircuitParameters c v a b).r1 = a := rfl

theorem mkCircuitParameters_r2 (c : Constraint) (v : Voltage) (a b : Resistor) :
    (mkCircuitParameters c v a b).r2 = b := rfl

theorem mkCircuitParameters_vref_value (c : Constraint) (v : Voltage) (a b : Resistor) :
    (mkCircuitParameters c v a b).vref.value =
      b.get_value / (a.get_value + b.get_value) * v.value := rfl

/-- The example gain range of `main` (`1/5`, `[1/5.2, 1/4.8]`). -/
def gainEx : RangedValue := { value := 1/5, min := 5/26, max := 5/24 }

/-- The sense resistor of `main`: `0.47 Ω` at 1 % tolerance. -/
def senseEx : Resistor := Resistor.new (47/100) (1/100)

/-- **C9.** With finite inputs, a catalog of positive resistor values with
tolerances in `[0, 1)`, and positive sense and gain values, every Stage-B
comparison key `k.value * vref.value` is produced by divisions with nonzero
divisors, so it is a well-defined (finite, non-NaN) number and the
`partial_cmp(..).unwrap()` of the Stage-B comparator cannot fail. -/
theorem C9_stageB_key_defined (c : Constraint) (v : Voltage) (rs : List Resistor)
    (gain : RangedValue) (r_rs : Resistor)
    (hres : ∀ r ∈ rs, 0 < r.get_value ∧ 0 ≤ r.get_tolerance ∧ r.get_tolerance < 1)
    (hsense : 0 < r_rs.get_value) (hgain : 0 < gain.value) :
    ∀ p ∈ find_combinations c v rs,
      stageBKeyChecked gain r_rs v p = some ((mkK gain r_rs).value * p.vref.value) := by
  intro p hp
  obtain ⟨a, ha, b, hb, -, rfl⟩ := mem_find_combinations_elim hp
  have hsum : (0:ℚ) < a.get_value + b.get_value := add_pos (hres a ha).1 (hres b hb).1
  simp only [stageBKeyChecked, qdivOpt, mkCircuitParameters_r1, mkCircuitParameters_r2,
    if_neg (ne_of_gt hsense), if_neg (ne_of_gt hsum), Option.some_bind,
    mkCircuitParameters_vref_value, mkK]

unseal Rat.add Rat.sub Rat.mul Rat.inv Rat.ofScientific List.merge List.mergeSort in
/-- Witness for C9: the key of the concrete candidate `pEx` is defined. -/
theorem C9_witness :
    (∀ r ∈ rsEx, 0 < r.get_value ∧ 0 ≤ r.get_tolerance ∧ r.get_tolerance < 1) ∧
      0 < senseEx.get_value ∧ 0 < gainEx.value ∧
      pEx ∈ find_combinations cEx vEx rsEx ∧
      stageBKeyChecked gainEx senseEx vEx pEx =
        some ((mkK gainEx senseEx).value * pEx.vref.value) :=
  ⟨by decide, by decide, by decide, by decide,
    C9_stageB_key_defined cEx vEx rsEx gainEx senseEx (by decide) (by decide) (by decide)
      pEx (by decide)⟩

/-! ### C10: the produced vref satisfies the RangedQuantity invariant -/

/-- **C10.** When every catalog resistor has positive value and tolerance in
`[0, 1)` and the source satisfies `0 < v.min ≤ v.value ≤ v.max`, every candidate
produced by `find_combinations` satisfies `vref.min ≤ vref.value ≤ vref.max`. -/
theorem C10_vref_invariant (c : Constraint) (v : Voltage) (rs : List Resistor)
    (hres : ∀ r ∈ rs, 0 < r.get_value ∧ 0 ≤ r.get_tolerance ∧ r.get_tolerance < 1)
    (h0 : 0 < v.min) (h1 : v.min ≤ v.value) (h2 : v.value ≤ v.max) :
    ∀ p ∈ find_combinations c v rs,
      p.vref.min ≤ p.vref.value ∧ p.vref.value ≤ p.vref.max := by
  intro p hp
  obtain ⟨a, ha, b, hb, -, rfl⟩ := mem_find_combinations_elim hp
  obtain ⟨hav, hat0, hat1⟩ := hres a ha
  obtain ⟨hbv, hbt0, hbt1⟩ := hres b hb
  have haminpos : 0 < a.min := Resistor.min_pos hav hat1
  have hamaxpos : 0 < a.max := Resistor.max_pos hav hat0
  have hbminpos : 0 < b.min := Resistor.min_pos hbv hbt1
  have hbmaxpos : 0 < b.max := Resistor.max_pos hbv hbt0
  have haminle : a.min ≤ a.get_value := Resistor.min_le_get_value hav.le hat0
  have hamaxge : a.get_value ≤ a.max := Resistor.get_value_le_max hav.le hat0
  have hbminle : b.min ≤ b.get_value := Resistor.min_le_get_value hbv.le hbt0
  have hbmaxge : b.get_value ≤ b.max := Resistor.get_value_le_max hbv.le hbt0
  have hratio1 : b.min / (a.max + b.min) ≤ b.get_value / (a.get_value + b.get_value) := by
    rw [div_le_div_iff₀ (add_pos hamaxpos hbminpos) (add_pos hav hbv)]
    have key : b.min * a.get_value ≤ b.get_value * a.max :=
      mul_le_mul hbminle hamaxge hav.le hbv.le
    nlinarith [key]
  have hratio2 : b.get_value / (a.get_value + b.get_value) ≤ b.max / (a.min + b.max) := by
    rw [div_le_div_iff₀ (add_pos hav hbv) (add_pos haminpos hbmaxpos)]
    have key : b.get_value * a.min ≤ b.max * a.get_value :=
      mul_le_mul hbmaxge haminle haminpos.le hbmaxpos.le
    nlinarith [key]
  constructor
  · show (b.min / (a.max + b.min)) * v.min ≤
      b.get_value / (a.get_value + b.get_value) * v.value
    exact mul_le_mul hratio1 h1 h0.le
      (le_of_lt (div_pos hbv (add_pos hav hbv)))
  · show b.get_value / (a.get_value + b.get_value) * v.value ≤
      (b.max / (a.min + b.max)) * v.max
    exact mul_le_mul hratio2 h2 (h0.trans_le h1).le
      (le_of_lt (div_pos hbmaxpos (add_pos haminpos hbmaxpos)))

unseal Rat.add Rat.sub Rat.mul Rat.inv Rat.ofScientific List.merge List.mergeSort in
/-- Witness for C10: the invariant holds for the concrete candidate `pEx`. -/
theorem C10_witness :
    (∀ r ∈ rsEx, 0 < r.get_value ∧ 0 ≤ r.get_tolerance ∧ r.get_tolerance < 1) ∧
      0 < vEx.min ∧ vEx.min ≤ vEx.value ∧ vEx.value ≤ vEx.max ∧
      pEx ∈ find_combinations cEx vEx rsEx ∧
      pEx.vref.min ≤ pEx.vref.value ∧ pEx.vref.value ≤ pEx.vref.max := by
  refine ⟨by decide, by decide, by decide, by decide, by decide, ?_⟩
  exact C10_vref_invariant cEx vEx rsEx (by decide) (by decide) (by decide) (by decide)
    pEx (by decide)

end VoltageDiv
